import Mathlib

/-!
Verification of the scalar time-series compute engine of visual-dl
(frontend scalars page): smoothing transform, range computer,
nearest-point locator, tooltip formatting width, heavy-work dispatcher
generation discipline, and the ScalarChart call-site glue.

Numbers are modelled as rationals (`ℚ`); steps as naturals.
-/

namespace VisualDL

/-- Error taxonomy of the engine (spec §7): `invalidParameter` for an
out-of-range smoothing factor, `emptyInput` for the range computer on
zero total samples. -/
inductive Err where
  | invalidParameter
  | emptyInput
deriving DecidableEq, Repr

/-- A raw scalar sample: `(step, wallTime, value)` (spec §3). -/
structure Sample where
  step : Nat
  wallTime : ℚ
  value : ℚ
deriving DecidableEq, Repr, Inhabited

/-- A raw per-run series, ordered by step ascending (spec §3). -/
abbrev RawSeries := List Sample

/-- A smoothed sample: `(step, wallTime, rawValue, smoothedValue)`
(spec §3); in the TS data rows the coordinates are the array entries
`[wallTime, step, value, smoothedValue]`. -/
structure SmoothedSample where
  step : Nat
  wallTime : ℚ
  value : ℚ
  smoothedValue : ℚ
deriving DecidableEq, Repr, Inhabited

/-- A smoothed per-run series, index-aligned with its raw series. -/
abbrev SmoothedSeries := List SmoothedSample

/-- Coordinate access mirroring the TS row layout
`[wallTime, step, value, smoothedValue]` used by `ScalarChart`
(`smoothedDatasets[0][0][2]`, `j[1]`, …). -/
def SmoothedSample.coord (s : SmoothedSample) : Nat → ℚ
  | 0 => s.wallTime
  | 1 => (s.step : ℚ)
  | 2 => s.value
  | _ => s.smoothedValue

/-- An axis range `(min, max)` (spec §3). -/
structure Range where
  min : ℚ
  max : ℚ
deriving DecidableEq, Repr

/-- The one-pass accumulator update of the exponential moving average
(spec §4.1): `acc = acc*factor + v*(1-factor)`. -/
def emaStep (factor : ℚ) (acc : ℚ) (s : Sample) : ℚ :=
  acc * factor + s.value * (1 - factor)

/-- Modelled from the spec: the body of the smoothing transform
(`transform` in `~/resource/scalars`, not present in the sources).
Single pass in step order: at 0-indexed position `i` the accumulator is
updated by `emaStep` and `smoothedValue = acc / (1 - factor^(i+1))`
(bias-corrected form, spec §4.1). `acc` and `i` are threaded through the
recursion. -/
def smoothRunAux (factor : ℚ) : ℚ → Nat → List Sample → List SmoothedSample
  | _, _, [] => []
  | acc, i, s :: rest =>
    let acc2 := emaStep factor acc s
    ⟨s.step, s.wallTime, s.value, acc2 / (1 - factor ^ (i + 1))⟩ ::
      smoothRunAux factor acc2 (i + 1) rest

/-- One run's smoothing: accumulator starts at `0`, positions at `0`. -/
def smoothRun (factor : ℚ) (run : RawSeries) : SmoothedSeries :=
  smoothRunAux factor 0 0 run

/-- Modelled from the spec: `smooth(datasets, factor)` (spec §4.1), the
`transform` entry point. Applied independently per run; a factor outside
`[0,1)` fails with `InvalidParameter` (spec §4.1 edge cases). -/
def smooth (datasets : List RawSeries) (factor : ℚ) :
    Except Err (List SmoothedSeries) :=
  if 0 ≤ factor ∧ factor < 1 then .ok (datasets.map (smoothRun factor))
  else .error .invalidParameter

/-- All smoothed values pooled across all runs and samples, in run order
(spec §4.2: "across all runs and samples"). -/
def pooled (datasets : List SmoothedSeries) : List ℚ :=
  (datasets.map (fun run => run.map (fun s => s.smoothedValue))).flatten

/-- The `(min, max)` of a list of values, `none` on the empty list. -/
def rangeOf (l : List ℚ) : Option Range :=
  match l with
  | [] => none
  | v :: vs => some ⟨vs.foldl min v, vs.foldl max v⟩

/-- Index of the 5th-percentile cutoff in a sorted pool of `n` values:
the lowest 5% of positions are dropped (spec §4.2). -/
def loIdx (n : Nat) : Nat := n * 5 / 100

/-- Index of the 95th-percentile cutoff in a sorted pool of `n` values:
positions from `⌊0.95·n⌋` on are dropped (spec §4.2). -/
def hiIdx (n : Nat) : Nat := n * 95 / 100 - 1

/-- Modelled from the spec: `computeRange(datasets, excludeOutliers)`
(spec §4.2), the `range` entry point of `~/resource/scalars` (not present
in the sources). Zero pooled samples fail with `EmptyInput`; without
outlier exclusion the result is the min/max over all smoothed values;
with exclusion the result is read off the pooled sorted values at the
5th/95th-percentile cutoff indices (values below/above the cutoffs are
dropped). -/
def computeRange (datasets : List SmoothedSeries) (excludeOutliers : Bool) :
    Except Err Range :=
  let p := pooled datasets
  match rangeOf p with
  | none => .error .emptyInput
  | some r =>
    if excludeOutliers then
      let s := p.insertionSort (· ≤ ·)
      .ok ⟨s.getD (loIdx s.length) 0, s.getD (hiIdx s.length) 0⟩
    else
      .ok r

/-- Absolute step distance of a smoothed sample from the query position. -/
def stepDist (q : ℚ) (s : SmoothedSample) : ℚ := |(s.step : ℚ) - q|

/-- Modelled from the spec: the scan of the nearest-point locator
(spec §4.3). Keeps the current best candidate and replaces it only on a
strictly smaller step distance, so ties keep the earlier sample. -/
def nearestAux (q : ℚ) : SmoothedSample → List SmoothedSample → SmoothedSample
  | b, [] => b
  | b, s :: rest => nearestAux q (if stepDist q s < stepDist q b then s else b) rest

/-- Modelled from the spec: per-run nearest sample to `queryStep`
(`nearestPoint` in `~/resource/scalars`, not present in the sources);
an empty run yields `none` ("absent", spec §4.3). -/
def nearest (q : ℚ) : List SmoothedSample → Option SmoothedSample
  | [] => none
  | s :: rest => some (nearestAux q s rest)

/-- Modelled from the spec: `locate(datasets, queryStep)` returns one
result per run (spec §4.3). -/
def locate (datasets : List SmoothedSeries) (q : ℚ) :
    List (Option SmoothedSample) :=
  datasets.map (nearest q)

/-- The dataset normalization of `ScalarChart`'s `transformParams`
(ScalarChart source): `datasets?.map(data => data ?? []) ?? []` — a run
still loading (`null`) becomes the empty series, and an absent response
list becomes the empty list. -/
def transformParamsDatasets (datasets : Option (List (Option RawSeries))) :
    List RawSeries :=
  (datasets.map (fun ds => ds.map (fun d => d.getD []))).getD []

/-- Modelled from the spec: `singlePointRange` of `~/resource/scalars`
(not present in the sources) — "a synthetic symmetric range centered on
that one value" (spec §4.2), with a nonzero span even at value `0`. -/
def singlePointRange (value : ℚ) : Range :=
  let span := if value = 0 then 1/2 else |value| / 2
  ⟨value - span, value + span⟩

/-- The x-axis type of the chart (`XAxisType` enum in ScalarChart). -/
inductive XAxisType where
  | value
  | log
  | time
deriving DecidableEq, Repr

/-- The pair of optional axis ranges produced by `ScalarChart`. -/
structure RangesOut where
  x : Option Range
  y : Option Range
deriving DecidableEq, Repr

/-- The `ranges` memo of `ScalarChart` (source): `y` is the dispatched
range-computer result; when there is exactly one run with exactly one
point, both axes are overridden by `singlePointRange` (the x axis only
for `value`/`log` axis types), the y axis reading the row entry at
index 2 and the x axis the entry at `xAxisMap[xAxis]` (`xIdx` here). -/
def rangesCompute (smoothedDatasets : List SmoothedSeries)
    (yRange : Option Range) (xAxisType : XAxisType) (xIdx : Nat) : RangesOut :=
  if smoothedDatasets.length = 1 ∧ (smoothedDatasets.getD 0 []).length = 1 then
    let pt := (smoothedDatasets.getD 0 []).getD 0 default
    { x := if xAxisType = .value ∨ xAxisType = .log then
          some (singlePointRange (pt.coord xIdx))
        else none,
      y := some (singlePointRange (pt.coord 2)) }
  else
    { x := none, y := yRange }

/-- Number of decimal digits of a natural number: the length of the
string `String(n)` produced by the TS code. -/
def decLen (n : Nat) : Nat :=
  if n < 10 then 1 else decLen (n / 10) + 1
decreasing_by exact Nat.div_lt_self (by omega) (by omega)

/-- The decimal digit characters of a natural number — the characters of
the TS string `String(n)`. -/
def decChars (n : Nat) : List Char :=
  if n < 10 then [Char.ofNat (48 + n)]
  else decChars (n / 10) ++ [Char.ofNat (48 + n % 10)]
decreasing_by exact Nat.div_lt_self (by omega) (by omega)

/-- The maximum step across all smoothed datasets, as in `ScalarChart`'s
`maxStepLength` memo (source): `Math.max(...datasets.map(i =>
Math.max(...i.map(j => j[1]))))`, with `0` in place of the empty-data
`-Infinity`. -/
def maxStep (ds : List SmoothedSeries) : Nat :=
  ds.foldl (fun m run => run.foldl (fun m2 s => Nat.max m2 s.step) m) 0

/-- `maxStepLength` of `ScalarChart` (source): the character length of the
largest step across the currently smoothed datasets. -/
def maxStepLength (ds : List SmoothedSeries) : Nat := decLen (maxStep ds)

/-- Modelled from the spec: the step-number padding of the tooltip
formatter (`tooltip` of `~/resource/scalars`, not present in the
sources) — every step is left-padded with spaces to the common width `w`
(spec §4.4). -/
def padStep (w : Nat) (step : Nat) : String :=
  String.mk (List.replicate (w - (decChars step).length) ' ' ++ decChars step)

/-- Modelled from the spec: a dispatcher slot (spec §4.5, §5): a
monotonic generation counter plus the visible (surfaced) result. -/
structure Slot (α : Type) where
  generation : Nat
  visible : Option α
deriving DecidableEq, Repr

/-- Modelled from the spec: issuing a request on a slot increments the
slot's generation; the in-flight computation carries that generation
(spec §4.5). -/
def issue {α : Type} (s : Slot α) : Slot α × Nat :=
  ({ s with generation := s.generation + 1 }, s.generation + 1)

/-- Modelled from the spec: result delivery (spec §4.5): a result whose
generation differs from the slot's current generation is discarded as a
no-op; otherwise it becomes the visible state. -/
def deliver {α : Type} (s : Slot α) (g : Nat) (r : α) : Slot α :=
  if g = s.generation then { s with visible := some r } else s

/-- The smoothing slider of the Scalars page (source `scalars.tsx`):
`min={0} max={0.99} step={0.01}`, so the reachable values are
`0 + k·0.01` for `k = 0..99`. -/
def sliderValue (k : Nat) : ℚ := 0 + k * (1/100)

/-- The initial smoothing state of the Scalars page (source
`scalars.tsx`): `useState(0.6)`. -/
def initialSmoothing : ℚ := 6/10

/-! ### General list helpers -/

lemma foldl_min_le_init (vs : List ℚ) : ∀ v : ℚ, vs.foldl min v ≤ v := by
  induction vs with
  | nil => intro v; simp
  | cons w ws ih =>
    intro v
    calc ws.foldl min (min v w) ≤ min v w := ih (min v w)
      _ ≤ v := min_le_left _ _

lemma le_foldl_max_init (vs : List ℚ) : ∀ v : ℚ, v ≤ vs.foldl max v := by
  induction vs with
  | nil => intro v; simp
  | cons w ws ih =>
    intro v
    calc v ≤ max v w := le_max_left _ _
      _ ≤ ws.foldl max (max v w) := ih (max v w)

lemma foldl_min_mem (vs : List ℚ) : ∀ v : ℚ, vs.foldl min v ∈ v :: vs := by
  induction vs with
  | nil => intro v; simp
  | cons w ws ih =>
    intro v
    rw [List.foldl_cons]
    rcases List.mem_cons.1 (ih (min v w)) with h1 | h1
    · rw [h1]
      rcases min_choice v w with hm | hm <;> simp [hm]
    · exact List.mem_cons_of_mem _ (List.mem_cons_of_mem _ h1)

lemma foldl_min_le (vs : List ℚ) : ∀ v : ℚ, ∀ x ∈ v :: vs, vs.foldl min v ≤ x := by
  induction vs with
  | nil => intro v x hx; simp at hx; simp [hx]
  | cons w ws ih =>
    intro v x hx
    rw [List.foldl_cons]
    rcases List.mem_cons.1 hx with rfl | hx
    · calc ws.foldl min (min x w) ≤ min x w := foldl_min_le_init ws _
        _ ≤ x := min_le_left _ _
    · rcases List.mem_cons.1 hx with rfl | hx
      · calc ws.foldl min (min v x) ≤ min v x := foldl_min_le_init ws _
          _ ≤ x := min_le_right _ _
      · exact ih (min v w) x (List.mem_cons_of_mem _ hx)

lemma foldl_max_mem (vs : List ℚ) : ∀ v : ℚ, vs.foldl max v ∈ v :: vs := by
  induction vs with
  | nil => intro v; simp
  | cons w ws ih =>
    intro v
    rw [List.foldl_cons]
    rcases List.mem_cons.1 (ih (max v w)) with h1 | h1
    · rw [h1]
      rcases max_choice v w with hm | hm <;> simp [hm]
    · exact List.mem_cons_of_mem _ (List.mem_cons_of_mem _ h1)

lemma le_foldl_max (vs : List ℚ) : ∀ v : ℚ, ∀ x ∈ v :: vs, x ≤ vs.foldl max v := by
  induction vs with
  | nil => intro v x hx; simp at hx; simp [hx]
  | cons w ws ih =>
    intro v x hx
    rw [List.foldl_cons]
    rcases List.mem_cons.1 hx with rfl | hx
    · calc x ≤ max x w := le_max_left _ _
        _ ≤ ws.foldl max (max x w) := le_foldl_max_init ws _
    · rcases List.mem_cons.1 hx with rfl | hx
      · calc x ≤ max v x := le_max_right _ _
          _ ≤ ws.foldl max (max v x) := le_foldl_max_init ws _
      · exact ih (max v w) x (List.mem_cons_of_mem _ hx)

/-- Full characterization of `rangeOf` on a nonempty list: both endpoints
are members and bound every member. -/
lemma rangeOf_spec (l : List ℚ) (h : l ≠ []) :
    ∃ m M : ℚ, rangeOf l = some ⟨m, M⟩ ∧ m ∈ l ∧ M ∈ l ∧
      ∀ x ∈ l, m ≤ x ∧ x ≤ M := by
  match l with
  | [] => exact absurd rfl h
  | v :: vs =>
    refine ⟨vs.foldl min v, vs.foldl max v, rfl, foldl_min_mem vs v,
      foldl_max_mem vs v, fun x hx => ⟨foldl_min_le vs v x hx, le_foldl_max vs v x hx⟩⟩

lemma getD_map_of_lt {α β : Type} (f : α → β) (l : List α) (i : Nat)
    (h : i < l.length) (d : α) : (l.map f).getD i (f d) = f (l.getD i d) := by
  have h2 : i < (l.map f).length := by simpa using h
  rw [List.getD_eq_getElem _ _ h2, List.getD_eq_getElem _ _ h, List.getElem_map]

/-! ### Smoothing transform: structure and formula -/

lemma smoothRunAux_length (f : ℚ) :
    ∀ (l : List Sample) (a : ℚ) (i : Nat), (smoothRunAux f a i l).length = l.length := by
  intro l
  induction l with
  | nil => intro a i; rfl
  | cons s rest ih => intro a i; simp [smoothRunAux, ih]

/-- The element at position `k` of the one-pass smoothing, with the
accumulator generalized: fields are copied from the input and the
smoothed value is the bias-corrected accumulator after `k+1` updates. -/
lemma smoothRunAux_getD (f : ℚ) :
    ∀ (l : List Sample) (a : ℚ) (i k : Nat), k < l.length →
      (smoothRunAux f a i l).getD k default =
        { step := (l.getD k default).step
          wallTime := (l.getD k default).wallTime
          value := (l.getD k default).value
          smoothedValue := ((l.take (k+1)).foldl (emaStep f) a) / (1 - f ^ (i + k + 1)) } := by
  intro l
  induction l with
  | nil => intro a i k hk; simp at hk
  | cons s rest ih =>
    intro a i k hk
    match k with
    | 0 => simp [smoothRunAux, List.getD, emaStep]
    | k + 1 =>
      have hk2 : k < rest.length := by simpa using hk
      have := ih (emaStep f a s) (i + 1) k hk2
      simp only [smoothRunAux, List.getD_cons_succ, List.take_succ_cons, List.foldl_cons]
      rw [this]
      have harith : i + 1 + k + 1 = i + (k + 1) + 1 := by omega
      rw [harith]

/-- With factor `0` the accumulator is always the current raw value and
the bias correction divides by `1`, for any starting accumulator and
position. -/
lemma smoothRunAux_zero :
    ∀ (l : List Sample) (a : ℚ) (i : Nat),
      smoothRunAux 0 a i l =
        l.map (fun s => ⟨s.step, s.wallTime, s.value, s.value⟩) := by
  intro l
  induction l with
  | nil => intro a i; rfl
  | cons s rest ih =>
    intro a i
    have hpow : (0:ℚ) ^ (i + 1) = 0 := zero_pow (Nat.succ_ne_zero i)
    simp [smoothRunAux, emaStep, hpow, ih]

/-- **C3.** Smoothing with factor 0 is the identity on values: every
sample keeps its raw value as its smoothed value (the field is still
populated), and in particular the raw series `[(0,0,10),(1,0,20)]`
smoothed with factor `0` yields the smoothed values `[10, 20]`. -/
theorem smooth_factor_zero_identity :
    (∀ ds : List RawSeries,
      smooth ds 0 =
        .ok (ds.map (fun run =>
          run.map (fun s => ⟨s.step, s.wallTime, s.value, s.value⟩)))) ∧
    smooth [[⟨0, 0, 10⟩, ⟨1, 0, 20⟩]] 0 =
      .ok [[⟨0, 0, 10, 10⟩, ⟨1, 0, 20, 20⟩]] := by
  have hmain : ∀ ds : List RawSeries,
      smooth ds 0 =
        .ok (ds.map (fun run =>
          run.map (fun s => ⟨s.step, s.wallTime, s.value, s.value⟩))) := by
    intro ds
    have : (0:ℚ) ≤ 0 ∧ (0:ℚ) < 1 := by norm_num
    simp only [smooth, if_pos this]
    congr 1
    exact List.map_congr_left fun run _ => smoothRunAux_zero run 0 0
  exact ⟨hmain, by rw [hmain]; rfl⟩

/-- **C2.** Dispatcher staleness discipline: two requests issued on the
same slot get generations `g1 < g2`; when `g1`'s result arrives after
`g2`'s, the slot's visible state reflects only `g2`'s result, because a
delivery whose generation differs from the slot's current generation is
discarded as a no-op (third conjunct: the general discard rule). -/
theorem dispatcher_generation_discard (α : Type) (s0 : Slot α) (r1 r2 : α) :
    (issue s0).2 < (issue (issue s0).1).2 ∧
    deliver (deliver (issue (issue s0).1).1 (issue (issue s0).1).2 r2)
        (issue s0).2 r1 =
      { generation := (issue (issue s0).1).2, visible := some r2 } ∧
    ∀ (s : Slot α) (g : Nat) (r : α), g ≠ s.generation → deliver s g r = s := by
  refine ⟨by simp [issue], ?_, ?_⟩
  · simp [issue, deliver]
  · intro s g r hg
    simp [deliver, hg]

/-- **C10.** Every smoothing factor the Scalars page can pass to a chart
lies in `[0, 0.99]`: the slider values `k·0.01` for `k ≤ 99` are bounded
by the slider maximum and lie in `[0,1)`, the initial state `0.6` is the
slider value at `k = 60`, and on all of them `smooth` takes its success
branch (the `InvalidParameter` branch is unreachable from the page). -/
theorem slider_smoothing_in_range (k : Nat) (hk : k ≤ 99) :
    0 ≤ sliderValue k ∧ sliderValue k ≤ sliderValue 99 ∧ sliderValue k < 1 ∧
    (∀ ds, smooth ds (sliderValue k) = .ok (ds.map (smoothRun (sliderValue k)))) ∧
    initialSmoothing = sliderValue 60 ∧
    (∀ ds, smooth ds initialSmoothing =
      .ok (ds.map (smoothRun initialSmoothing))) := by
  have hcast : (k:ℚ) ≤ 99 := by exact_mod_cast hk
  have h0 : 0 ≤ sliderValue k := by
    unfold sliderValue; positivity
  have h99 : sliderValue k ≤ sliderValue 99 := by
    unfold sliderValue; push_cast; linarith
  have h1 : sliderValue k < 1 := by
    unfold sliderValue; linarith
  have hinit : initialSmoothing = sliderValue 60 := by
    norm_num [initialSmoothing, sliderValue]
  refine ⟨h0, h99, h1, ?_, hinit, ?_⟩
  · intro ds
    simp only [smooth, if_pos (And.intro h0 h1)]
  · intro ds
    rw [hinit]
    have h0' : 0 ≤ sliderValue 60 := by unfold sliderValue; positivity
    have h1' : sliderValue 60 < 1 := by unfold sliderValue; norm_num
    simp only [smooth, if_pos (And.intro h0' h1')]

/-- Witness for C10 at the initial slider position `k = 60`. -/
theorem slider_smoothing_in_range_witness :
    0 ≤ sliderValue 60 ∧ sliderValue 60 ≤ sliderValue 99 ∧ sliderValue 60 < 1 ∧
    (∀ ds, smooth ds (sliderValue 60) = .ok (ds.map (smoothRun (sliderValue 60)))) ∧
    initialSmoothing = sliderValue 60 ∧
    (∀ ds, smooth ds initialSmoothing =
      .ok (ds.map (smoothRun initialSmoothing))) :=
  slider_smoothing_in_range 60 (by norm_num)

/-- **C1.** For every dataset collection and factor in `[0,1)`, `smooth`
succeeds and computes each run independently, in order, by the one-pass
accumulator recurrence `acc = acc*factor + v*(1-factor)` (starting from
`0`): the sample at 0-indexed position `i` keeps its step/wallTime/raw
value and gets `smoothedValue = acc / (1 - factor^(i+1))` where `acc` is
the accumulator after the first `i+1` updates; at `i = 0` the smoothed
value equals the raw value. -/
theorem smooth_ema_bias_corrected (ds : List RawSeries) (f : ℚ)
    (h0 : 0 ≤ f) (h1 : f < 1) :
    ∃ out, smooth ds f = .ok out ∧ out.length = ds.length ∧
      ∀ r, r < ds.length →
        (out.getD r []).length = (ds.getD r []).length ∧
        (∀ i, i < (ds.getD r []).length →
          (out.getD r []).getD i default =
            { step := ((ds.getD r []).getD i default).step
              wallTime := ((ds.getD r []).getD i default).wallTime
              value := ((ds.getD r []).getD i default).value
              smoothedValue :=
                (((ds.getD r []).take (i+1)).foldl (emaStep f) 0) /
                  (1 - f ^ (i+1)) }) ∧
        (0 < (ds.getD r []).length →
          ((out.getD r []).getD 0 default).smoothedValue =
            ((ds.getD r []).getD 0 default).value) := by
  refine ⟨ds.map (smoothRun f), by simp only [smooth, if_pos (And.intro h0 h1)],
    by simp, ?_⟩
  intro r hr
  have hout : (ds.map (smoothRun f)).getD r [] = smoothRun f (ds.getD r []) :=
    getD_map_of_lt (smoothRun f) ds r hr []
  have hget : ∀ i, i < (ds.getD r []).length →
      (smoothRun f (ds.getD r [])).getD i default =
        { step := ((ds.getD r []).getD i default).step
          wallTime := ((ds.getD r []).getD i default).wallTime
          value := ((ds.getD r []).getD i default).value
          smoothedValue :=
            (((ds.getD r []).take (i+1)).foldl (emaStep f) 0) /
              (1 - f ^ (i+1)) } := by
    intro i hi
    have := smoothRunAux_getD f (ds.getD r []) 0 0 i hi
    simpa [smoothRun] using this
  refine ⟨by rw [hout]; exact smoothRunAux_length f _ 0 0, by rw [hout]; exact hget, ?_⟩
  intro hlen
  rw [hout, hget 0 hlen]
  obtain ⟨s, rest, hrun⟩ :=
    List.exists_cons_of_ne_nil (List.ne_nil_of_length_pos hlen)
  have hf : (1:ℚ) - f ≠ 0 := sub_ne_zero.2 (ne_of_gt (by linarith))
  rw [hrun]
  show (([s] : List Sample).foldl (emaStep f) 0) / (1 - f ^ (0+1)) = s.value
  simp only [List.foldl_cons, List.foldl_nil, emaStep, zero_mul, zero_add, pow_one]
  rw [mul_div_assoc, div_self hf, mul_one]

/-- Witness for C1: the 2-sample run `[(0,0,10),(1,0,20)]` at factor
`1/2`. -/
theorem smooth_ema_bias_corrected_witness :
    ∃ out, smooth [[⟨0, 0, 10⟩, ⟨1, 0, 20⟩]] (1/2) = .ok out ∧
      out.length = ([[⟨0, 0, 10⟩, ⟨1, 0, 20⟩]] : List RawSeries).length ∧
      ∀ r, r < ([[⟨0, 0, 10⟩, ⟨1, 0, 20⟩]] : List RawSeries).length →
        (out.getD r []).length =
          (([[⟨0, 0, 10⟩, ⟨1, 0, 20⟩]] : List RawSeries).getD r []).length ∧
        (∀ i, i < (([[⟨0, 0, 10⟩, ⟨1, 0, 20⟩]] : List RawSeries).getD r []).length →
          (out.getD r []).getD i default =
            { step := ((([[⟨0, 0, 10⟩, ⟨1, 0, 20⟩]] : List RawSeries).getD r []).getD i default).step
              wallTime := ((([[⟨0, 0, 10⟩, ⟨1, 0, 20⟩]] : List RawSeries).getD r []).getD i default).wallTime
              value := ((([[⟨0, 0, 10⟩, ⟨1, 0, 20⟩]] : List RawSeries).getD r []).getD i default).value
              smoothedValue :=
                (((([[⟨0, 0, 10⟩, ⟨1, 0, 20⟩]] : List RawSeries).getD r []).take (i+1)).foldl
                    (emaStep (1/2)) 0) / (1 - (1/2:ℚ) ^ (i+1)) }) ∧
        (0 < (([[⟨0, 0, 10⟩, ⟨1, 0, 20⟩]] : List RawSeries).getD r []).length →
          ((out.getD r []).getD 0 default).smoothedValue =
            ((([[⟨0, 0, 10⟩, ⟨1, 0, 20⟩]] : List RawSeries).getD r []).getD 0 default).value) :=
  smooth_ema_bias_corrected [[⟨0, 0, 10⟩, ⟨1, 0, 20⟩]] (1/2)
    (by norm_num) (by norm_num)

/-- **C4.** On any dataset collection with at least one pooled sample,
`computeRange` without outlier exclusion returns a range whose `min` and
`max` are the minimum and maximum over all smoothed values across all
runs and samples: `min ≤ max`, both endpoints occur in the data, and
they bound every pooled smoothed value. -/
theorem computeRange_no_exclusion_min_max (ds : List SmoothedSeries)
    (h : pooled ds ≠ []) :
    ∃ r : Range, computeRange ds false = .ok r ∧ r.min ≤ r.max ∧
      r.min ∈ pooled ds ∧ r.max ∈ pooled ds ∧
      ∀ v ∈ pooled ds, r.min ≤ v ∧ v ≤ r.max := by
  obtain ⟨m, M, hro, hm, hM, hb⟩ := rangeOf_spec (pooled ds) h
  refine ⟨⟨m, M⟩, ?_, (hb m hm).2, hm, hM, hb⟩
  simp only [computeRange]
  rw [hro]
  simp

/-- Witness for C4: two runs with smoothed values `1` and `2`. -/
theorem computeRange_no_exclusion_min_max_witness :
    pooled [[⟨0, 0, 1, 1⟩], [⟨1, 0, 2, 2⟩]] ≠ [] ∧
    ∃ r : Range, computeRange [[⟨0, 0, 1, 1⟩], [⟨1, 0, 2, 2⟩]] false = .ok r ∧
      r.min ≤ r.max ∧
      r.min ∈ pooled [[⟨0, 0, 1, 1⟩], [⟨1, 0, 2, 2⟩]] ∧
      r.max ∈ pooled [[⟨0, 0, 1, 1⟩], [⟨1, 0, 2, 2⟩]] ∧
      ∀ v ∈ pooled [[⟨0, 0, 1, 1⟩], [⟨1, 0, 2, 2⟩]], r.min ≤ v ∧ v ≤ r.max :=
  ⟨by simp [pooled],
   computeRange_no_exclusion_min_max [[⟨0, 0, 1, 1⟩], [⟨1, 0, 2, 2⟩]]
     (by simp [pooled])⟩

/-! ### Outlier exclusion -/

/-- The pooled smoothed values, sorted ascending (spec §4.2's "pooled,
sorted value set across all series"). -/
def sortedPooled (ds : List SmoothedSeries) : List ℚ :=
  (pooled ds).insertionSort (· ≤ ·)

/-- The 5th-percentile cutoff value of the pooled sorted values. -/
def p5 (ds : List SmoothedSeries) : ℚ :=
  (sortedPooled ds).getD (loIdx (sortedPooled ds).length) 0

/-- The 95th-percentile cutoff value of the pooled sorted values. -/
def p95 (ds : List SmoothedSeries) : ℚ :=
  (sortedPooled ds).getD (hiIdx (sortedPooled ds).length) 0

lemma sorted_getD_mono (s : List ℚ) (hs : s.Sorted (· ≤ ·)) {i j : Nat}
    (hij : i ≤ j) (hj : j < s.length) : s.getD i 0 ≤ s.getD j 0 := by
  have hi : i < s.length := lt_of_le_of_lt hij hj
  rw [List.getD_eq_getElem _ _ hi, List.getD_eq_getElem _ _ hj]
  exact hs.rel_get_of_le (a := ⟨i, hi⟩) (b := ⟨j, hj⟩) (Fin.mk_le_mk.mpr hij)

lemma getD_mem_of_lt (s : List ℚ) (i : Nat) (h : i < s.length) :
    s.getD i 0 ∈ s := by
  rw [List.getD_eq_getElem _ _ h]
  exact s.getElem_mem h

/-- **C5.** `computeRange` with outlier exclusion reads the range off the
pooled sorted values at the 5th/95th-percentile cutoff indices; this
equals the range of the pooled values after dropping the ones strictly
below the 5th-percentile cutoff or strictly above the 95th-percentile
cutoff; and on a dataset with no actual outliers (every pooled value is
within the cutoffs) it returns the same range as without exclusion. -/
theorem computeRange_outlier_trim (ds : List SmoothedSeries)
    (h : pooled ds ≠ []) :
    computeRange ds true = .ok ⟨p5 ds, p95 ds⟩ ∧
    p5 ds ≤ p95 ds ∧
    rangeOf ((pooled ds).filter (fun v => decide (p5 ds ≤ v ∧ v ≤ p95 ds))) =
      some ⟨p5 ds, p95 ds⟩ ∧
    ((∀ v ∈ pooled ds, p5 ds ≤ v ∧ v ≤ p95 ds) →
      computeRange ds true = computeRange ds false) := by
  obtain ⟨m, M, hro, hm, hM, hb⟩ := rangeOf_spec (pooled ds) h
  have hperm : List.Perm (sortedPooled ds) (pooled ds) :=
    (pooled ds).perm_insertionSort _
  have hlen : (sortedPooled ds).length = (pooled ds).length := hperm.length_eq
  have hn : 1 ≤ (sortedPooled ds).length := by
    rw [hlen]
    exact List.length_pos.2 h
  have hlo_lt : loIdx (sortedPooled ds).length < (sortedPooled ds).length := by
    unfold loIdx; omega
  have hhi_lt : hiIdx (sortedPooled ds).length < (sortedPooled ds).length := by
    unfold hiIdx; omega
  have hlohi : loIdx (sortedPooled ds).length ≤ hiIdx (sortedPooled ds).length := by
    unfold loIdx hiIdx; omega
  have hsorted : (sortedPooled ds).Sorted (· ≤ ·) :=
    List.sorted_insertionSort _ _
  have h5le95 : p5 ds ≤ p95 ds := sorted_getD_mono _ hsorted hlohi hhi_lt
  have hp5mem : p5 ds ∈ pooled ds :=
    hperm.mem_iff.1 (getD_mem_of_lt _ _ hlo_lt)
  have hp95mem : p95 ds ∈ pooled ds :=
    hperm.mem_iff.1 (getD_mem_of_lt _ _ hhi_lt)
  have hpart1 : computeRange ds true = .ok ⟨p5 ds, p95 ds⟩ := by
    simp only [computeRange]
    rw [hro]
    simp [p5, p95, sortedPooled]
  refine ⟨hpart1, h5le95, ?_, ?_⟩
  · have hp5q : p5 ds ∈ (pooled ds).filter
        (fun v => decide (p5 ds ≤ v ∧ v ≤ p95 ds)) :=
      List.mem_filter.2 ⟨hp5mem, by simp [h5le95]⟩
    have hp95q : p95 ds ∈ (pooled ds).filter
        (fun v => decide (p5 ds ≤ v ∧ v ≤ p95 ds)) :=
      List.mem_filter.2 ⟨hp95mem, by simp [h5le95]⟩
    obtain ⟨m2, M2, hro2, hm2, hM2, hb2⟩ :=
      rangeOf_spec _ (List.ne_nil_of_mem hp5q)
    have hmlow : p5 ds ≤ m2 := by
      have := List.mem_filter.1 hm2
      simpa using (of_decide_eq_true this.2).1
    have hMhigh : M2 ≤ p95 ds := by
      have := List.mem_filter.1 hM2
      simpa using (of_decide_eq_true this.2).2
    have hm2eq : m2 = p5 ds := le_antisymm (hb2 _ hp5q).1 hmlow
    have hM2eq : M2 = p95 ds := le_antisymm hMhigh (hb2 _ hp95q).2
    rw [hro2, hm2eq, hM2eq]
  · intro hall
    have hmeq : m = p5 ds :=
      le_antisymm (hb _ hp5mem).1 (hall m hm).1
    have hMeq : M = p95 ds :=
      le_antisymm (hall M hM).2 (hb _ hp95mem).2
    have hfalse : computeRange ds false = .ok ⟨m, M⟩ := by
      simp only [computeRange]
      rw [hro]
      simp
    rw [hpart1, hfalse, hmeq, hMeq]

/-- Witness for C5: one run with two equal smoothed values `5`, a
dataset with no outliers. -/
theorem computeRange_outlier_trim_witness :
    pooled [[⟨0, 0, 5, 5⟩, ⟨1, 0, 5, 5⟩]] ≠ [] ∧
    (computeRange [[⟨0, 0, 5, 5⟩, ⟨1, 0, 5, 5⟩]] true =
      .ok ⟨p5 [[⟨0, 0, 5, 5⟩, ⟨1, 0, 5, 5⟩]], p95 [[⟨0, 0, 5, 5⟩, ⟨1, 0, 5, 5⟩]]⟩ ∧
    p5 [[⟨0, 0, 5, 5⟩, ⟨1, 0, 5, 5⟩]] ≤ p95 [[⟨0, 0, 5, 5⟩, ⟨1, 0, 5, 5⟩]] ∧
    rangeOf ((pooled [[⟨0, 0, 5, 5⟩, ⟨1, 0, 5, 5⟩]]).filter
        (fun v => decide (p5 [[⟨0, 0, 5, 5⟩, ⟨1, 0, 5, 5⟩]] ≤ v ∧
          v ≤ p95 [[⟨0, 0, 5, 5⟩, ⟨1, 0, 5, 5⟩]]))) =
      some ⟨p5 [[⟨0, 0, 5, 5⟩, ⟨1, 0, 5, 5⟩]], p95 [[⟨0, 0, 5, 5⟩, ⟨1, 0, 5, 5⟩]]⟩ ∧
    ((∀ v ∈ pooled [[⟨0, 0, 5, 5⟩, ⟨1, 0, 5, 5⟩]],
        p5 [[⟨0, 0, 5, 5⟩, ⟨1, 0, 5, 5⟩]] ≤ v ∧
          v ≤ p95 [[⟨0, 0, 5, 5⟩, ⟨1, 0, 5, 5⟩]]) →
      computeRange [[⟨0, 0, 5, 5⟩, ⟨1, 0, 5, 5⟩]] true =
        computeRange [[⟨0, 0, 5, 5⟩, ⟨1, 0, 5, 5⟩]] false)) :=
  ⟨by simp [pooled],
   computeRange_outlier_trim [[⟨0, 0, 5, 5⟩, ⟨1, 0, 5, 5⟩]] (by simp [pooled])⟩

/-! ### Nearest-point locator -/

/-- The scan keeps a first minimizer: the result splits the candidate
list so that every element strictly before it has strictly larger
distance, and the result's distance is minimal overall. -/
lemma nearestAux_spec (q : ℚ) :
    ∀ (rest : List SmoothedSample) (b : SmoothedSample),
      ∃ pre post, b :: rest = pre ++ nearestAux q b rest :: post ∧
        (∀ t ∈ b :: rest, stepDist q (nearestAux q b rest) ≤ stepDist q t) ∧
        (∀ t ∈ pre, stepDist q (nearestAux q b rest) < stepDist q t) := by
  intro rest
  induction rest with
  | nil =>
    intro b
    exact ⟨[], [], rfl, by simp [nearestAux], by simp⟩
  | cons s rest2 ih =>
    intro b
    by_cases hcmp : stepDist q s < stepDist q b
    · obtain ⟨pre, post, hsplit, hmin, hstrict⟩ := ih s
      have hres : nearestAux q b (s :: rest2) = nearestAux q s rest2 := by
        simp [nearestAux, hcmp]
      refine ⟨b :: pre, post, ?_, ?_, ?_⟩
      · rw [hres]
        simpa using hsplit
      · intro t ht
        rw [hres]
        rcases List.mem_cons.1 ht with rfl | ht
        · calc stepDist q (nearestAux q s rest2) ≤ stepDist q s :=
                hmin s (List.mem_cons_self _ _)
            _ ≤ stepDist q t := le_of_lt hcmp
        · exact hmin t ht
      · intro t ht
        rw [hres]
        rcases List.mem_cons.1 ht with rfl | ht
        · calc stepDist q (nearestAux q s rest2) ≤ stepDist q s :=
                hmin s (List.mem_cons_self _ _)
            _ < stepDist q t := hcmp
        · exact hstrict t ht
    · obtain ⟨pre, post, hsplit, hmin, hstrict⟩ := ih b
      have hres : nearestAux q b (s :: rest2) = nearestAux q b rest2 := by
        simp [nearestAux, hcmp]
      have hble : stepDist q b ≤ stepDist q s := le_of_not_lt hcmp
      match pre, hsplit with
      | [], hsplit =>
        have hr : nearestAux q b rest2 = b := by
          have := hsplit
          simp at this
          exact this.1.symm
        refine ⟨[], s :: rest2, ?_, ?_, by simp⟩
        · rw [hres, hr]
          rfl
        · intro t ht
          rw [hres, hr]
          rcases List.mem_cons.1 ht with rfl | ht
          · simp
          · rcases List.mem_cons.1 ht with rfl | ht
            · exact hble
            · have := hmin t (List.mem_cons_of_mem _ ht)
              rw [hr] at this
              exact this
      | x :: pre2, hsplit =>
        have hx : b = x ∧ rest2 = pre2 ++ nearestAux q b rest2 :: post := by
          have := hsplit
          simp only [List.cons_append, List.cons.injEq] at this
          exact this
        have hblt : stepDist q (nearestAux q b rest2) < stepDist q b := by
          have := hstrict x (List.mem_cons_self _ _)
          rw [← hx.1] at this
          exact this
        refine ⟨b :: s :: pre2, post, ?_, ?_, ?_⟩
        · rw [hres]
          simp only [List.cons_append]
          rw [← hx.2]
        · intro t ht
          rw [hres]
          rcases List.mem_cons.1 ht with rfl | ht
          · exact hmin t (List.mem_cons_self _ _)
          · rcases List.mem_cons.1 ht with rfl | ht
            · exact le_of_lt (lt_of_lt_of_le hblt hble)
            · exact hmin t (List.mem_cons_of_mem _ ht)
        · intro t ht
          rw [hres]
          rcases List.mem_cons.1 ht with rfl | ht
          · exact hblt
          · rcases List.mem_cons.1 ht with rfl | ht
            · exact lt_of_lt_of_le hblt hble
            · exact hstrict t (List.mem_cons_of_mem _ ht)

/-- **C6.** `locate` gives, per run, `none` ("absent") iff the run has no
samples; for a run with at least one sample it gives a sample of that
run whose absolute step distance to the query is minimal among the run's
samples, and — when the run is ordered by step, as RawSeries are — every
sample tying on distance has a step not earlier than the returned one. -/
theorem locate_nearest_sample (ds : List SmoothedSeries) (q : ℚ) (r : Nat)
    (hr : r < ds.length) :
    (ds.getD r [] = [] → (locate ds q).getD r none = none) ∧
    (ds.getD r [] ≠ [] →
      ∃ s, (locate ds q).getD r none = some s ∧ s ∈ ds.getD r [] ∧
        (∀ t ∈ ds.getD r [], stepDist q s ≤ stepDist q t) ∧
        ((ds.getD r []).Pairwise (fun a b => a.step ≤ b.step) →
          ∀ t ∈ ds.getD r [], stepDist q t = stepDist q s → s.step ≤ t.step)) := by
  have hloc : (locate ds q).getD r none = nearest q (ds.getD r []) := by
    have := getD_map_of_lt (nearest q) ds r hr []
    simpa [locate, nearest] using this
  constructor
  · intro hempty
    rw [hloc, hempty]
    rfl
  · intro hne
    obtain ⟨b, rest, hrun⟩ := List.exists_cons_of_ne_nil hne
    obtain ⟨pre, post, hsplit, hmin, hstrict⟩ := nearestAux_spec q rest b
    refine ⟨nearestAux q b rest, by rw [hloc, hrun]; rfl, ?_, ?_, ?_⟩
    · rw [hrun, hsplit]
      exact List.mem_append_right _ (List.mem_cons_self _ _)
    · intro t ht
      rw [hrun] at ht
      exact hmin t ht
    · intro hsortedRun t ht htie
      rw [hrun] at ht hsortedRun
      rw [hsplit] at ht hsortedRun
      rcases List.mem_append.1 ht with ht | ht
      · exact absurd htie.symm (ne_of_lt (hstrict t ht))
      · rcases List.mem_cons.1 ht with rfl | ht
        · exact le_refl _
        · have hpw := (List.pairwise_append.1 hsortedRun).2.1
          exact (List.pairwise_cons.1 hpw).1 t ht

/-- Witness for C6: two runs, one with steps `0` and `5` queried at `3`,
one empty. -/
theorem locate_nearest_sample_witness :
    (0 : Nat) < ([[⟨0, 0, 1, 1⟩, ⟨5, 0, 2, 2⟩], []] : List SmoothedSeries).length ∧
    ((([[⟨0, 0, 1, 1⟩, ⟨5, 0, 2, 2⟩], []] : List SmoothedSeries).getD 0 [] = [] →
      (locate [[⟨0, 0, 1, 1⟩, ⟨5, 0, 2, 2⟩], []] 3).getD 0 none = none) ∧
    (([[⟨0, 0, 1, 1⟩, ⟨5, 0, 2, 2⟩], []] : List SmoothedSeries).getD 0 [] ≠ [] →
      ∃ s, (locate [[⟨0, 0, 1, 1⟩, ⟨5, 0, 2, 2⟩], []] 3).getD 0 none = some s ∧
        s ∈ ([[⟨0, 0, 1, 1⟩, ⟨5, 0, 2, 2⟩], []] : List SmoothedSeries).getD 0 [] ∧
        (∀ t ∈ ([[⟨0, 0, 1, 1⟩, ⟨5, 0, 2, 2⟩], []] : List SmoothedSeries).getD 0 [],
          stepDist 3 s ≤ stepDist 3 t) ∧
        ((([[⟨0, 0, 1, 1⟩, ⟨5, 0, 2, 2⟩], []] : List SmoothedSeries).getD 0 []).Pairwise
            (fun a b => a.step ≤ b.step) →
          ∀ t ∈ ([[⟨0, 0, 1, 1⟩, ⟨5, 0, 2, 2⟩], []] : List SmoothedSeries).getD 0 [],
            stepDist 3 t = stepDist 3 s → s.step ≤ t.step))) :=
  ⟨by norm_num,
   locate_nearest_sample [[⟨0, 0, 1, 1⟩, ⟨5, 0, 2, 2⟩], []] 3 0 (by norm_num)⟩

/-! ### Tolerating absent runs -/

lemma pooled_cons (run : SmoothedSeries) (rest : List SmoothedSeries) :
    pooled (run :: rest) = run.map (fun s => s.smoothedValue) ++ pooled rest := by
  simp [pooled]

/-- Empty series contribute nothing to the pooled values: dropping them
leaves the pool (hence any range computed from it) unchanged. -/
lemma pooled_filter_empties (l : List SmoothedSeries) :
    pooled (l.filter (fun run => !run.isEmpty)) = pooled l := by
  induction l with
  | nil => rfl
  | cons run rest ih =>
    cases run with
    | nil => simpa [List.filter_cons, pooled_cons] using ih
    | cons a t => simp [List.filter_cons, pooled_cons, ih]

/-- **C7.** The engine tolerates `absent` (`null`) entries for runs still
loading: `ScalarChart`'s `transformParams` maps each absent entry to the
empty series, `smooth` then succeeds (producing results, not an error),
the output stays index-aligned with the input with an empty smoothed
series at every absent position, and for range purposes the empty series
contribute nothing to the pooled values. -/
theorem absent_series_tolerated (ds : List (Option RawSeries)) (f : ℚ)
    (h0 : 0 ≤ f) (h1 : f < 1) :
    ∃ out, smooth (transformParamsDatasets (some ds)) f = .ok out ∧
      out.length = ds.length ∧
      (∀ i, i < ds.length → ds.getD i none = none → out.getD i [] = []) ∧
      pooled (out.filter (fun run => !run.isEmpty)) = pooled out := by
  refine ⟨(transformParamsDatasets (some ds)).map (smoothRun f),
    by simp only [smooth, if_pos (And.intro h0 h1)], by simp [transformParamsDatasets],
    ?_, pooled_filter_empties _⟩
  intro i hi hnone
  have hmap : transformParamsDatasets (some ds) =
      ds.map (fun d => d.getD []) := rfl
  have hstep1 : (ds.map (fun d : Option RawSeries => d.getD [])).getD i [] =
      (ds.getD i none).getD [] :=
    getD_map_of_lt (fun d : Option RawSeries => d.getD []) ds i hi none
  have hstep2 : ((ds.map (fun d : Option RawSeries => d.getD [])).map
        (smoothRun f)).getD i [] =
      smoothRun f ((ds.map (fun d : Option RawSeries => d.getD [])).getD i []) :=
    getD_map_of_lt (smoothRun f) (ds.map (fun d => d.getD [])) i
      (by simpa using hi) []
  rw [hmap, hstep2, hstep1, hnone]
  rfl

/-- Witness for C7: one loaded run and one absent run, factor `1/2`. -/
theorem absent_series_tolerated_witness :
    (0:ℚ) ≤ 1/2 ∧
    ∃ out, smooth (transformParamsDatasets
        (some [some [⟨0, 0, 10⟩], none])) (1/2) = .ok out ∧
      out.length = ([some [⟨0, 0, 10⟩], none] : List (Option RawSeries)).length ∧
      (∀ i, i < ([some [⟨0, 0, 10⟩], none] : List (Option RawSeries)).length →
        ([some [⟨0, 0, 10⟩], none] : List (Option RawSeries)).getD i none = none →
        out.getD i [] = []) ∧
      pooled (out.filter (fun run => !run.isEmpty)) = pooled out :=
  ⟨by norm_num,
   absent_series_tolerated [some [⟨0, 0, 10⟩], none] (1/2)
     (by norm_num) (by norm_num)⟩

/-! ### Single-point range substitution -/

/-- **C8.** When the smoothed dataset collection has exactly one run with
exactly one point, the composing chart logic (`ScalarChart`'s `ranges`
memo, not the range computer) substitutes a synthetic symmetric range
centered on that point's value for the y axis, and for the x axis on
`value`/`log` axis types only; on any other dataset shape the computed
`yRange` passes through untouched; and the range computer itself returns
the degenerate `(v, v)` range on the single-point dataset. -/
theorem single_point_range_substitution (ds : List SmoothedSeries)
    (yR : Option Range) (xt : XAxisType) (xi : Nat)
    (hcond : ds.length = 1 ∧ (ds.getD 0 []).length = 1) :
    (rangesCompute ds yR xt xi).y =
      some (singlePointRange (((ds.getD 0 []).getD 0 default).coord 2)) ∧
    (∀ v : ℚ, (singlePointRange v).min + (singlePointRange v).max = 2 * v ∧
      (singlePointRange v).min < (singlePointRange v).max) ∧
    ((xt = .value ∨ xt = .log) →
      (rangesCompute ds yR xt xi).x =
        some (singlePointRange (((ds.getD 0 []).getD 0 default).coord xi))) ∧
    (xt = .time → (rangesCompute ds yR xt xi).x = none) ∧
    computeRange ds false =
      .ok ⟨((ds.getD 0 []).getD 0 default).smoothedValue,
        ((ds.getD 0 []).getD 0 default).smoothedValue⟩ ∧
    (∀ ds2 : List SmoothedSeries,
      ¬(ds2.length = 1 ∧ (ds2.getD 0 []).length = 1) →
      rangesCompute ds2 yR xt xi = ⟨none, yR⟩) := by
  obtain ⟨run, hds⟩ := List.length_eq_one.1 hcond.1
  have hrunlen : run.length = 1 := by
    have := hcond.2
    rw [hds] at this
    simpa using this
  obtain ⟨pt, hrun⟩ := List.length_eq_one.1 hrunlen
  subst hds
  subst hrun
  refine ⟨?_, ?_, ?_, ?_, ?_, ?_⟩
  · simp [rangesCompute, hcond]
  · intro v
    by_cases hv : v = 0
    · subst hv
      constructor <;> norm_num [singlePointRange]
    · have habs : 0 < |v| := abs_pos.2 hv
      constructor
      · simp [singlePointRange, hv]
        ring
      · simp [singlePointRange, hv]
        linarith
  · intro hxt
    rcases hxt with rfl | rfl <;> simp [rangesCompute, hcond]
  · intro hxt
    subst hxt
    simp [rangesCompute, hcond]
  · simp [computeRange, pooled, rangeOf]
  · intro ds2 hc2
    simp only [rangesCompute]
    rw [if_neg hc2]

/-- Witness for C8: the single point `(step 3, wallTime 0, raw 7,
smoothed 9)` with a previously computed `yRange` of `(1, 2)`. -/
theorem single_point_range_substitution_witness :
    (([[⟨3, 0, 7, 9⟩]] : List SmoothedSeries).length = 1 ∧
      (([[⟨3, 0, 7, 9⟩]] : List SmoothedSeries).getD 0 []).length = 1) ∧
    ((rangesCompute [[⟨3, 0, 7, 9⟩]] (some ⟨1, 2⟩) .value 1).y =
      some (singlePointRange (((([[⟨3, 0, 7, 9⟩]] : List SmoothedSeries).getD 0 []).getD 0
        default).coord 2)) ∧
    (∀ v : ℚ, (singlePointRange v).min + (singlePointRange v).max = 2 * v ∧
      (singlePointRange v).min < (singlePointRange v).max) ∧
    ((XAxisType.value = .value ∨ XAxisType.value = .log) →
      (rangesCompute [[⟨3, 0, 7, 9⟩]] (some ⟨1, 2⟩) .value 1).x =
        some (singlePointRange (((([[⟨3, 0, 7, 9⟩]] : List SmoothedSeries).getD 0 []).getD 0
          default).coord 1))) ∧
    (XAxisType.value = .time →
      (rangesCompute [[⟨3, 0, 7, 9⟩]] (some ⟨1, 2⟩) .value 1).x = none) ∧
    computeRange [[⟨3, 0, 7, 9⟩]] false =
      .ok ⟨((([[⟨3, 0, 7, 9⟩]] : List SmoothedSeries).getD 0 []).getD 0
          default).smoothedValue,
        ((([[⟨3, 0, 7, 9⟩]] : List SmoothedSeries).getD 0 []).getD 0
          default).smoothedValue⟩ ∧
    (∀ ds2 : List SmoothedSeries,
      ¬(ds2.length = 1 ∧ (ds2.getD 0 []).length = 1) →
      rangesCompute ds2 (some ⟨1, 2⟩) .value 1 = ⟨none, some ⟨1, 2⟩⟩)) :=
  ⟨by simp,
   single_point_range_substitution [[⟨3, 0, 7, 9⟩]] (some ⟨1, 2⟩) .value 1 (by simp)⟩

/-! ### Tooltip step padding -/

lemma decLen_pos (n : Nat) : 1 ≤ decLen n := by
  rw [decLen]
  split <;> omega

lemma decChars_length (n : Nat) : (decChars n).length = decLen n := by
  induction n using Nat.strong_induction_on with
  | _ n ih =>
    rw [decChars, decLen]
    by_cases h : n < 10
    · simp [h]
    · have hlt : n / 10 < n := Nat.div_lt_self (by omega) (by omega)
      simp [h, ih (n / 10) hlt]

lemma decLen_mono : ∀ b a : Nat, a ≤ b → decLen a ≤ decLen b := by
  intro b
  induction b using Nat.strong_induction_on with
  | _ b ih =>
    intro a h
    by_cases hb : b < 10
    · have ha : a < 10 := lt_of_le_of_lt h hb
      have hA : decLen a = 1 := by rw [decLen]; simp [ha]
      have hB : decLen b = 1 := by rw [decLen]; simp [hb]
      rw [hA, hB]
    · by_cases ha : a < 10
      · calc decLen a = 1 := by rw [decLen]; simp [ha]
          _ ≤ decLen b := decLen_pos b
      · have hA : decLen a = decLen (a / 10) + 1 := by
          rw [decLen]; simp [ha]
        have hB : decLen b = decLen (b / 10) + 1 := by
          rw [decLen]; simp [hb]
        have hblt : b / 10 < b := Nat.div_lt_self (by omega) (by omega)
        rw [hA, hB]
        exact Nat.succ_le_succ (ih (b / 10) hblt (a / 10) (Nat.div_le_div_right h))

lemma foldl_nat_le_init {α : Type} (g : Nat → α → Nat)
    (hg : ∀ m x, m ≤ g m x) : ∀ (l : List α) (m : Nat), m ≤ l.foldl g m := by
  intro l
  induction l with
  | nil => intro m; simp
  | cons x xs ih =>
    intro m
    calc m ≤ g m x := hg m x
      _ ≤ xs.foldl g (g m x) := ih (g m x)

lemma step_le_inner_fold (s : SmoothedSample) :
    ∀ (run : List SmoothedSample) (m : Nat), s ∈ run →
      s.step ≤ run.foldl (fun m2 t => Nat.max m2 t.step) m := by
  intro run
  induction run with
  | nil => intro m hs; simp at hs
  | cons t ts ih =>
    intro m hs
    rcases List.mem_cons.1 hs with rfl | hs
    · calc s.step ≤ Nat.max m s.step := Nat.le_max_right _ _
        _ ≤ ts.foldl (fun m2 t => Nat.max m2 t.step) (Nat.max m s.step) :=
          foldl_nat_le_init _ (fun m2 x => Nat.le_max_left _ _) ts _
    · exact ih _ hs

lemma step_le_maxStep (ds : List SmoothedSeries) (run : SmoothedSeries)
    (s : SmoothedSample) (hrun : run ∈ ds) (hs : s ∈ run) :
    s.step ≤ maxStep ds := by
  suffices h : ∀ (l : List SmoothedSeries) (m : Nat), run ∈ l →
      s.step ≤ l.foldl (fun m2 r => r.foldl (fun m3 t => Nat.max m3 t.step) m2) m by
    exact h ds 0 hrun
  intro l
  induction l with
  | nil => intro m hmem; simp at hmem
  | cons r0 rest ih =>
    intro m hmem
    rcases List.mem_cons.1 hmem with rfl | hmem
    · calc s.step ≤ run.foldl (fun m3 t => Nat.max m3 t.step) m :=
            step_le_inner_fold s run m hs
        _ ≤ rest.foldl (fun m2 r => r.foldl (fun m3 t => Nat.max m3 t.step) m2)
              (run.foldl (fun m3 t => Nat.max m3 t.step) m) :=
          foldl_nat_le_init _
            (fun m2 r => foldl_nat_le_init _ (fun m3 x => Nat.le_max_left _ _) r m2)
            rest _
    · exact ih _ hmem

/-- **C9.** Every step number rendered in the tooltip is padded to the
same character width, and that width is the character length of the
largest step across all currently smoothed datasets: for every sample of
every run, the padded step string has length exactly `maxStepLength`,
which by definition is the decimal width of the maximum step. -/
theorem tooltip_step_padding (ds : List SmoothedSeries) (run : SmoothedSeries)
    (s : SmoothedSample) (hrun : run ∈ ds) (hs : s ∈ run) :
    (padStep (maxStepLength ds) s.step).length = maxStepLength ds ∧
    maxStepLength ds = decLen (maxStep ds) := by
  have hle : s.step ≤ maxStep ds := step_le_maxStep ds run s hrun hs
  have hwidth : (decChars s.step).length ≤ maxStepLength ds := by
    rw [decChars_length, maxStepLength]
    exact decLen_mono _ _ hle
  refine ⟨?_, rfl⟩
  show (List.replicate (maxStepLength ds - (decChars s.step).length) ' '
      ++ decChars s.step).length = maxStepLength ds
  rw [List.length_append, List.length_replicate]
  omega

/-- Witness for C9: two runs with steps `12` and `345`; the width is the
3 characters of `345` and the padded `12` also renders in 3. -/
theorem tooltip_step_padding_witness :
    (([⟨12, 0, 1, 1⟩] : SmoothedSeries) ∈
      ([[⟨12, 0, 1, 1⟩], [⟨345, 0, 2, 2⟩]] : List SmoothedSeries)) ∧
    ((⟨12, 0, 1, 1⟩ : SmoothedSample) ∈ ([⟨12, 0, 1, 1⟩] : SmoothedSeries)) ∧
    (padStep (maxStepLength [[⟨12, 0, 1, 1⟩], [⟨345, 0, 2, 2⟩]])
        (⟨12, 0, 1, 1⟩ : SmoothedSample).step).length =
      maxStepLength [[⟨12, 0, 1, 1⟩], [⟨345, 0, 2, 2⟩]] ∧
    maxStepLength [[⟨12, 0, 1, 1⟩], [⟨345, 0, 2, 2⟩]] =
      decLen (maxStep [[⟨12, 0, 1, 1⟩], [⟨345, 0, 2, 2⟩]]) :=
  ⟨by simp, by simp,
   tooltip_step_padding [[⟨12, 0, 1, 1⟩], [⟨345, 0, 2, 2⟩]] [⟨12, 0, 1, 1⟩]
     ⟨12, 0, 1, 1⟩ (by simp) (by simp)⟩

end VisualDL
